import Mathlib

/-
  Shallow embedding of the Raft node actor from src/raft/node.go
  (package raft, type nodeActor) of troygilman0/actormq.

  Modelling conventions:
  - uint64 fields become Nat.  Every subtraction in node.go is guarded so
    that it cannot underflow on states reachable by the protocol; Nat
    truncated subtraction agrees with Go uint64 subtraction at each of
    those sites.
  - actor.PID values are compared and keyed by their String() form in the
    Go code, so PIDs are modelled as strings.  A nil *actor.PID becomes
    Option.none.
  - Go maps keyed by pid.String() / log index become association lists
    with distinct keys; the handlers only build, look up, update and
    delete, and the single iteration whose order could matter
    (countMatched) is order independent.
  - The two float32 comparisons, float32(votes)/float32(n) > 0.5 and
    float32(matched) > float32(n)/2, are modelled as 2*votes > n and
    2*matched > n.  For the cluster sizes representable here (well below
    2^24) the float32 comparison and the integer comparison agree,
    including the n = 0 cases (1/0 = +Inf > 0.5 and 0/0 = NaN which is
    not > 0.5).
  - Side effects (messages sent via act.Send, election timer resets,
    invocations of the application command handler) are collected in an
    Output list.  Logging is dropped.
  - time.Timer state is not modelled; timer firings enter as the two
    timeout inputs of the checkTimers branch, and timer Reset calls are
    recorded as Output.resetElectionTimer effects.
  - actor.Ping (answered by Pong), actor.Initialized and actor.Started
    touch no consensus state and are omitted from InMsg.
-/

namespace Raft

/-- actormq.LogEntry: command payload and the term it was created in. -/
structure LogEntry where
  command : String
  term : Nat
deriving DecidableEq, Inhabited

/-- Peer identity, the String() form of an actor.PID. -/
abbrev PID := String

/-- nodeMetadata: per-peer replication cursors. -/
structure NodeMetadata where
  pid : PID
  nextIndex : Nat
  matchIndex : Nat
deriving DecidableEq, Inhabited

/-- The mutable consensus state of nodeActor.  selfPid models act.PID(). -/
structure NodeState where
  selfPid : PID
  leader : Option PID
  currentTerm : Nat
  votedFor : Option PID
  log : List LogEntry
  commitIndex : Nat
  lastApplied : Nat
  votes : Nat
  nodes : List (PID × NodeMetadata)
  pendingCommands : List (Nat × PID)
deriving DecidableEq, Inhabited

/-- actormq.AppendEntries message. -/
structure AppendEntriesMsg where
  term : Nat
  leaderPID : PID
  prevLogTerm : Nat
  prevLogIndex : Nat
  entries : List LogEntry
  leaderCommit : Nat
deriving DecidableEq, Inhabited

/-- actormq.AppendEntriesResult message. -/
structure AppendEntriesResultMsg where
  pid : PID
  term : Nat
  success : Bool
deriving DecidableEq, Inhabited

/-- actormq.RequestVote message. -/
structure RequestVoteMsg where
  term : Nat
  candidatePID : PID
  lastLogIndex : Nat
  lastLogTerm : Nat
deriving DecidableEq, Inhabited

/-- actormq.RequestVoteResult message. -/
structure RequestVoteResultMsg where
  term : Nat
  voteGranted : Bool
deriving DecidableEq, Inhabited

/-- Payloads a node can send via act.Send. -/
inductive OutMsg where
  | appendEntries (m : AppendEntriesMsg)
  | appendEntriesResult (m : AppendEntriesResultMsg)
  | requestVote (m : RequestVoteMsg)
  | requestVoteResult (term : Nat) (voteGranted : Bool)
  | commandResult (success : Bool) (redirect : Option PID)
deriving DecidableEq

/-- Observable effects of a handler run. -/
inductive Output where
  | send (dst : PID) (msg : OutMsg)
  | resetElectionTimer
  | applyCommand (command : String)
deriving DecidableEq

/-- The inbound inputs dispatched by nodeActor.Receive that touch
consensus state.  The two timeout inputs model the checkTimers branch
when the corresponding timer has fired. -/
inductive InMsg where
  | activeNodes (nodes : List PID)
  | command (cmd : String)
  | appendEntries (m : AppendEntriesMsg)
  | appendEntriesResult (m : AppendEntriesResultMsg)
  | requestVote (m : RequestVoteMsg)
  | requestVoteResult (m : RequestVoteResultMsg)
  | electionTimeout
  | heartbeatTimeout
deriving DecidableEq

/-- lastLogIndexAndTerm from node.go. -/
def lastLogIndexAndTerm (s : NodeState) : Nat × Nat :=
  (s.log.length,
   if s.log.length > 0 then (s.log.getD (s.log.length - 1) default).term else 0)

/-- handleExternalTerm from node.go: the pre-dispatch term advance. -/
def handleExternalTerm (term : Nat) (s : NodeState) : NodeState :=
  if term > s.currentTerm then
    { s with currentTerm := term, leader := none, votedFor := none }
  else s

/-- handleActiveNodes from node.go: rebuilds node.nodes from scratch,
skipping self and duplicate pids within the message. -/
def handleActiveNodes (pids : List PID) (s : NodeState) : NodeState :=
  let lastLogIndex := (lastLogIndexAndTerm s).1
  let newNodes := pids.foldl (fun acc pid =>
    if pid = s.selfPid then acc
    else if (acc.lookup pid).isSome then acc
    else acc ++ [(pid, { pid := pid, nextIndex := lastLogIndex + 1, matchIndex := 0 })]) []
  { s with nodes := newNodes }

/-- sendAppendEntries from node.go: builds the AppendEntries message for
one peer; returns no output on the two error paths. -/
def sendAppendEntries (s : NodeState) (pid : PID) : List Output :=
  match s.nodes.lookup pid with
  | none => []
  | some metadata =>
    if metadata.nextIndex = 0 then []
    else
      let lastLogIndex := (lastLogIndexAndTerm s).1
      let entries := if lastLogIndex ≥ metadata.nextIndex
                     then s.log.drop (metadata.nextIndex - 1) else []
      let prevLogIndex := metadata.nextIndex - 1
      let prevLogTerm := if prevLogIndex > 0
                         then (s.log.getD (prevLogIndex - 1) default).term else 0
      [Output.send metadata.pid (OutMsg.appendEntries
        { term := s.currentTerm, leaderPID := s.selfPid,
          prevLogTerm := prevLogTerm, prevLogIndex := prevLogIndex,
          entries := entries, leaderCommit := s.commitIndex })]

/-- sendAppendEntriesAll from node.go. -/
def sendAppendEntriesAll (s : NodeState) : List Output :=
  s.nodes.foldr (fun p acc => sendAppendEntries s p.2.pid ++ acc) []

/-- handleCommand from node.go. -/
def handleCommand (sender : PID) (cmd : String) (s : NodeState) :
    NodeState × List Output :=
  if s.leader = some s.selfPid then
    let log := s.log ++ [{ command := cmd, term := s.currentTerm }]
    let newLogIndex := log.length
    let s := { s with
      log := log,
      pendingCommands :=
        (newLogIndex, sender) :: s.pendingCommands.filter (fun p => p.1 != newLogIndex) }
    (s, sendAppendEntriesAll s)
  else
    (s, [Output.send sender (OutMsg.commandResult false s.leader)])

/-- One iteration of the entries loop of handleAppendEntries: the
conflict truncation (Condition 3) followed by the append of a missing
entry (Condition 4), at protocol index newIdx. -/
def appendStep (entry : LogEntry) (newIdx : Nat) (log : List LogEntry) :
    List LogEntry :=
  let log1 := if log.length ≥ newIdx ∧ (log.getD (newIdx - 1) default).term ≠ entry.term
              then log.take (newIdx - 1) else log
  if log1.length < newIdx then log1 ++ [entry] else log1

/-- The conflict-resolution and append loop of handleAppendEntries
(Conditions 3 and 4 in node.go), returning the new log together with the
final newEntryIndex. -/
def appendLoop : List LogEntry → Nat → List LogEntry → List LogEntry × Nat
  | [], idx, log => (log, idx)
  | entry :: rest, idx, log =>
    appendLoop rest (idx + 1) (appendStep entry (idx + 1) log)

/-- handleAppendEntries from node.go, without the deferred reply and the
timer reset; returns the new state and the success flag. -/
def handleAppendEntriesCore (s : NodeState) (m : AppendEntriesMsg) :
    NodeState × Bool :=
  if m.term < s.currentTerm then (s, false)
  else
    let s := { s with leader := some m.leaderPID }
    if m.prevLogIndex > 0 ∧
       (s.log.length < m.prevLogIndex ∨
        (s.log.length > 0 ∧ (s.log.getD (m.prevLogIndex - 1) default).term ≠ m.prevLogTerm))
    then (s, false)
    else
      let r := appendLoop m.entries m.prevLogIndex s.log
      let s := { s with log := r.1 }
      let s := if m.leaderCommit > s.commitIndex
               then { s with commitIndex := min m.leaderCommit r.2 } else s
      (s, true)

/-- handleAppendEntries from node.go including the deferred reply; on
success the election timer is stopped and re-armed before the deferred
send runs. -/
def handleAppendEntriesFull (sender : PID) (m : AppendEntriesMsg)
    (s : NodeState) : NodeState × List Output :=
  let r := handleAppendEntriesCore s m
  let reply := Output.send sender (OutMsg.appendEntriesResult
    { pid := r.1.selfPid, term := r.1.currentTerm, success := r.2 })
  (r.1, if r.2 then [Output.resetElectionTimer, reply] else [reply])

/-- handleAppendEntriesResult from node.go. -/
def handleAppendEntriesResult (m : AppendEntriesResultMsg) (s : NodeState) :
    NodeState × List Output :=
  match s.nodes.lookup m.pid with
  | none => (s, [])
  | some metadata =>
    if m.success then
      let lastLogIndex := (lastLogIndexAndTerm s).1
      let md := { metadata with
        matchIndex := metadata.nextIndex - 1, nextIndex := lastLogIndex + 1 }
      ({ s with nodes := s.nodes.map (fun p => if p.1 = m.pid then (p.1, md) else p) }, [])
    else
      let md := if metadata.nextIndex > 1
                then { metadata with nextIndex := metadata.nextIndex - 1 } else metadata
      let s := { s with nodes := s.nodes.map (fun p => if p.1 = m.pid then (p.1, md) else p) }
      (s, sendAppendEntries s md.pid)

/-- handleRequestVote from node.go, without the deferred reply; returns
the new state and the voteGranted flag. -/
def handleRequestVoteCore (s : NodeState) (m : RequestVoteMsg) :
    NodeState × Bool :=
  if m.term < s.currentTerm then (s, false)
  else if (s.votedFor = none ∨ s.votedFor = some m.candidatePID)
          ∧ m.lastLogIndex ≥ s.lastApplied
          ∧ (s.lastApplied = 0 ∨ m.lastLogTerm ≥ (s.log.getD (s.lastApplied - 1) default).term)
  then ({ s with votedFor := some m.candidatePID }, true)
  else (s, false)

/-- handleRequestVote from node.go including the deferred reply.  Note
that no election timer reset occurs on this path. -/
def handleRequestVoteFull (sender : PID) (m : RequestVoteMsg)
    (s : NodeState) : NodeState × List Output :=
  let r := handleRequestVoteCore s m
  (r.1, [Output.send sender (OutMsg.requestVoteResult r.1.currentTerm r.2)])

/-- handleRequestVoteResult from node.go. -/
def handleRequestVoteResult (m : RequestVoteResultMsg) (s : NodeState) :
    NodeState × List Output :=
  if m.voteGranted ∧ m.term = s.currentTerm ∧ ¬ s.leader = some s.selfPid then
    let s := { s with votes := s.votes + 1 }
    if 2 * s.votes > s.nodes.length then
      let lastLogIndex := (lastLogIndexAndTerm s).1
      let s := { s with
        leader := some s.selfPid,
        nodes := s.nodes.map (fun p =>
          (p.1, { p.2 with nextIndex := lastLogIndex + 1, matchIndex := 0 })) }
      (s, sendAppendEntriesAll s)
    else (s, [])
  else (s, [])

/-- startElection from node.go. -/
def startElection (s : NodeState) : NodeState × List Output :=
  let s := { s with currentTerm := s.currentTerm + 1, votes := 1,
                    votedFor := some s.selfPid }
  if s.nodes.length + 1 < 3 then (s, [])
  else
    let lastLog := lastLogIndexAndTerm s
    (s, s.nodes.foldr (fun p acc =>
      Output.send p.2.pid (OutMsg.requestVote
        { term := s.currentTerm, candidatePID := s.selfPid,
          lastLogIndex := lastLog.1, lastLogTerm := lastLog.2 }) :: acc) [])

/-- Number of peers whose matchIndex is at least i. -/
def countMatched (nodes : List (PID × NodeMetadata)) (i : Nat) : Nat :=
  nodes.countP (fun p => i ≤ p.2.matchIndex)

/-- The leader commit scan of updateStateMachine: i runs from fuel down
to commitIndex + 1, stopping at the first index whose entry has the
current term and is matched on a strict majority of the peer table. -/
def scanCommitAux (log : List LogEntry) (term : Nat)
    (nodes : List (PID × NodeMetadata)) (commitIndex : Nat) : Nat → Nat
  | 0 => commitIndex
  | i + 1 =>
    if i + 1 ≥ commitIndex + 1 then
      if (log.getD (i + 1 - 1) default).term = term
         ∧ 2 * countMatched nodes (i + 1) > nodes.length
      then i + 1
      else scanCommitAux log term nodes commitIndex i
    else commitIndex

/-- The new commitIndex computed by the leader branch of
updateStateMachine. -/
def scanCommit (s : NodeState) : Nat :=
  scanCommitAux s.log s.currentTerm s.nodes s.commitIndex s.log.length

/-- The apply loop of updateStateMachine, with fuel equal to the number
of pending applications; commitIndex does not change inside the loop, so
this fuel runs the Go while loop to completion. -/
def applyLoopAux : Nat → NodeState → NodeState × List Output
  | 0, s => (s, [])
  | fuel + 1, s =>
    if s.commitIndex > s.lastApplied then
      let la := s.lastApplied + 1
      let entry := s.log.getD (la - 1) default
      let replyOuts := match s.pendingCommands.lookup la with
        | some sender => [Output.send sender (OutMsg.commandResult true none)]
        | none => []
      let pending := match s.pendingCommands.lookup la with
        | some _ => s.pendingCommands.filter (fun p => p.1 != la)
        | none => s.pendingCommands
      let s := { s with lastApplied := la, pendingCommands := pending }
      let r := applyLoopAux fuel s
      (r.1, Output.applyCommand entry.command :: replyOuts ++ r.2)
    else (s, [])

/-- The while loop at the end of updateStateMachine. -/
def applyLoop (s : NodeState) : NodeState × List Output :=
  applyLoopAux (s.commitIndex - s.lastApplied) s

/-- updateStateMachine from node.go: leader-side commit advancement
followed by the apply loop.  Runs after every handled message. -/
def updateStateMachine (s : NodeState) : NodeState × List Output :=
  let s := if s.leader = some s.selfPid
           then { s with commitIndex := scanCommit s } else s
  applyLoop s

/-- The switch statement of nodeActor.Receive: pre-dispatch term advance
for the four peer messages, then the message-specific handler. -/
def dispatch (sender : PID) (msg : InMsg) (s : NodeState) :
    NodeState × List Output :=
  match msg with
  | InMsg.activeNodes pids => (handleActiveNodes pids s, [])
  | InMsg.command cmd => handleCommand sender cmd s
  | InMsg.appendEntries m =>
      handleAppendEntriesFull sender m (handleExternalTerm m.term s)
  | InMsg.appendEntriesResult m =>
      handleAppendEntriesResult m (handleExternalTerm m.term s)
  | InMsg.requestVote m =>
      handleRequestVoteFull sender m (handleExternalTerm m.term s)
  | InMsg.requestVoteResult m =>
      handleRequestVoteResult m (handleExternalTerm m.term s)
  | InMsg.heartbeatTimeout =>
      if s.leader = some s.selfPid then (s, sendAppendEntriesAll s) else (s, [])
  | InMsg.electionTimeout =>
      let r0 := if ¬ s.leader = some s.selfPid then startElection s else (s, [])
      (r0.1, Output.resetElectionTimer :: r0.2)

/-- nodeActor.Receive from node.go: the dispatch switch followed by
updateStateMachine. -/
def receive (sender : PID) (msg : InMsg) (s : NodeState) :
    NodeState × List Output :=
  let r := dispatch sender msg s
  let r2 := updateStateMachine r.1
  (r2.1, r.2 ++ r2.2)

/-! ## Spec-side predicates and concrete states used by the claims -/

/-- The spec invariant lastApplied ≤ commitIndex ≤ len(log). -/
abbrev stateInv (s : NodeState) : Prop :=
  s.lastApplied ≤ s.commitIndex ∧ s.commitIndex ≤ s.log.length

/-- Side condition on an inbound message: an AppendEntries payload must
not place the index of its last new entry below the current commitIndex
of the receiver.  Messages built by sendAppendEntries of a leader whose
commitIndex is at most its log length satisfy this for followers whose
commitIndex is at most the leader commit. -/
abbrev msgOk (s : NodeState) (msg : InMsg) : Prop :=
  match msg with
  | InMsg.appendEntries m => s.commitIndex ≤ m.prevLogIndex + m.entries.length
  | _ => True

/-- The commit qualification tested by updateStateMachine at index i:
the entry has the current term and strictly more than half of the peer
table (self not counted) has matchIndex ≥ i. -/
abbrev commitQualifies (s : NodeState) (i : Nat) : Prop :=
  (s.log.getD (i - 1) default).term = s.currentTerm
  ∧ 2 * countMatched s.nodes i > s.nodes.length

/-- Characterization of one leader commit advancement: either no index
in (commitIndex, len(log)] qualifies and commitIndex is unchanged, or
the new commitIndex is the largest qualifying index of that interval. -/
def commitAdvanceSpec (s : NodeState) (c : Nat) : Prop :=
  (c = s.commitIndex
    ∧ ∀ j, s.commitIndex < j → j ≤ s.log.length → ¬ commitQualifies s j)
  ∨ (s.commitIndex < c ∧ c ≤ s.log.length ∧ commitQualifies s c
    ∧ ∀ k, c < k → k ≤ s.log.length → ¬ commitQualifies s k)

/-- Modelled from the claim wording of C1: strictly more than half of
the cluster counting the leader itself (peers plus self) has
matchIndex ≥ i, the leader counting as matched. -/
abbrev claimClusterMajority (nodes : List (PID × NodeMetadata)) (i : Nat) : Prop :=
  2 * (countMatched nodes i + 1) > nodes.length + 1

/-- Recognizer for RequestVoteResult replies among outputs. -/
def isRequestVoteResultSend : Output → Bool
  | Output.send _ (OutMsg.requestVoteResult _ _) => true
  | _ => false

/-- A three-node leader state: one peer has replicated index 1, the
other has not, and the index-1 entry carries the current term. -/
def exC1st : NodeState :=
  { selfPid := "A", leader := some "A", currentTerm := 1, votedFor := some "A",
    log := [{ command := "x", term := 1 }], commitIndex := 0, lastApplied := 0,
    votes := 2,
    nodes := [("B", { pid := "B", nextIndex := 2, matchIndex := 1 }),
              ("C", { pid := "C", nextIndex := 2, matchIndex := 0 })],
    pendingCommands := [] }

/-- A freshly started follower. -/
def exC2init : NodeState :=
  { selfPid := "A", leader := none, currentTerm := 0, votedFor := none,
    log := [], commitIndex := 0, lastApplied := 0,
    votes := 0, nodes := [], pendingCommands := [] }

/-- Five entries of term 1 at leaderCommit 5. -/
def msgC2one : AppendEntriesMsg :=
  { term := 1, leaderPID := "L", prevLogTerm := 0, prevLogIndex := 0,
    entries := [{ command := "x", term := 1 }, { command := "x", term := 1 },
                { command := "x", term := 1 }, { command := "x", term := 1 },
                { command := "x", term := 1 }], leaderCommit := 5 }

/-- A conflicting entry of term 2 at index 3, truncating the log. -/
def msgC2two : AppendEntriesMsg :=
  { term := 1, leaderPID := "L", prevLogTerm := 1, prevLogIndex := 2,
    entries := [{ command := "y", term := 2 }], leaderCommit := 5 }

def sC2afterOne : NodeState :=
  (receive "L" (InMsg.appendEntries msgC2one) exC2init).1

def sC2afterTwo : NodeState :=
  (receive "L" (InMsg.appendEntries msgC2two) sC2afterOne).1

/-- A peer table entry with advanced cursors, about to be refreshed. -/
def exC3 : NodeState :=
  { selfPid := "A", leader := none, currentTerm := 1, votedFor := none,
    log := [{ command := "x", term := 1 }], commitIndex := 0, lastApplied := 0,
    votes := 0, nodes := [("B", { pid := "B", nextIndex := 7, matchIndex := 3 })],
    pendingCommands := [] }

/-- A leader with one outstanding pending command. -/
def exC4 : NodeState :=
  { selfPid := "A", leader := some "A", currentTerm := 1, votedFor := some "A",
    log := [{ command := "x", term := 1 }], commitIndex := 0, lastApplied := 0,
    votes := 2,
    nodes := [("B", { pid := "B", nextIndex := 2, matchIndex := 0 }),
              ("C", { pid := "C", nextIndex := 2, matchIndex := 0 })],
    pendingCommands := [(1, "client")] }

/-- A RequestVote of a higher term, demoting the leader. -/
def msgC4rv : RequestVoteMsg :=
  { term := 2, candidatePID := "B", lastLogIndex := 5, lastLogTerm := 5 }

/-- A follower with five committed and applied entries. -/
def exC5 : NodeState :=
  { selfPid := "A", leader := some "L", currentTerm := 1, votedFor := none,
    log := [{ command := "x", term := 1 }, { command := "x", term := 1 },
            { command := "x", term := 1 }, { command := "x", term := 1 },
            { command := "x", term := 1 }],
    commitIndex := 5, lastApplied := 5,
    votes := 0, nodes := [], pendingCommands := [] }

/-- An empty heartbeat with prevLogIndex 0 and a large leaderCommit. -/
def msgC5ae : AppendEntriesMsg :=
  { term := 1, leaderPID := "L", prevLogTerm := 0, prevLogIndex := 0,
    entries := [], leaderCommit := 6 }

/-- A freshly started follower, target of a first AppendEntries. -/
def exC6 : NodeState :=
  { selfPid := "B", leader := none, currentTerm := 0, votedFor := none,
    log := [], commitIndex := 0, lastApplied := 0,
    votes := 0, nodes := [], pendingCommands := [] }

def msgC6 : AppendEntriesMsg :=
  { term := 0, leaderPID := "L", prevLogTerm := 0, prevLogIndex := 0,
    entries := [{ command := "x", term := 0 }], leaderCommit := 0 }

/-- A follower that will grant the vote below. -/
def exC7 : NodeState :=
  { selfPid := "A", leader := none, currentTerm := 0, votedFor := none,
    log := [], commitIndex := 0, lastApplied := 0,
    votes := 0, nodes := [], pendingCommands := [] }

def msgC7rv : RequestVoteMsg :=
  { term := 1, candidatePID := "C", lastLogIndex := 0, lastLogTerm := 0 }

def msgC7ae : AppendEntriesMsg :=
  { term := 1, leaderPID := "L", prevLogTerm := 0, prevLogIndex := 0,
    entries := [], leaderCommit := 0 }

/-- A follower about to see a higher-term message. -/
def exC8 : NodeState :=
  { selfPid := "A", leader := some "L", currentTerm := 1, votedFor := some "L",
    log := [], commitIndex := 0, lastApplied := 0,
    votes := 0, nodes := [], pendingCommands := [] }

/-- A candidate in a five-node cluster with one self vote. -/
def exC10 : NodeState :=
  { selfPid := "A", leader := none, currentTerm := 1, votedFor := some "A",
    log := [], commitIndex := 0, lastApplied := 0,
    votes := 1,
    nodes := [("B", { pid := "B", nextIndex := 1, matchIndex := 0 }),
              ("C", { pid := "C", nextIndex := 1, matchIndex := 0 }),
              ("D", { pid := "D", nextIndex := 1, matchIndex := 0 }),
              ("E", { pid := "E", nextIndex := 1, matchIndex := 0 })],
    pendingCommands := [] }

def msgC10grant : RequestVoteResultMsg := { term := 1, voteGranted := true }

/-- The state after two deliveries of the same grant from peer B. -/
def rTwoGrantsC10 : NodeState :=
  (receive "B" (InMsg.requestVoteResult msgC10grant)
    (receive "B" (InMsg.requestVoteResult msgC10grant) exC10).1).1

/-! ## Helper lemmas about the embedded operations -/

theorem lookup_filter_ne_self (l : List (Nat × PID)) (k : Nat) :
    (l.filter (fun p => p.1 != k)).lookup k = none := by
  induction l with
  | nil => rfl
  | cons a l ih =>
    rw [List.filter_cons]
    by_cases h : a.1 = k
    · have hb : (a.1 != k) = false := by simp [h]
      rw [hb]
      simpa using ih
    · have hb : (a.1 != k) = true := by simp [h]
      rw [hb]
      simp only [if_true]
      rw [List.lookup]
      have hk : (k == a.1) = false := by simp [Ne.symm h]
      rw [hk]
      exact ih

theorem lookup_none_filter (l : List (Nat × PID)) (q : Nat × PID → Bool) (k : Nat)
    (h : l.lookup k = none) : (l.filter q).lookup k = none := by
  induction l with
  | nil => rfl
  | cons a l ih =>
    rw [List.lookup] at h
    by_cases hk : k = a.1
    · simp [hk] at h
    · rw [List.filter_cons]
      have h' : l.lookup k = none := by
        simpa [show (k == a.1) = false from beq_eq_false_iff_ne.mpr hk] using h
      by_cases hq : q a
      · simpa [hq, List.lookup, show (k == a.1) = false from beq_eq_false_iff_ne.mpr hk]
          using ih h'
      · simpa [hq] using ih h'

/-- applyLoopAux only modifies lastApplied and pendingCommands. -/
theorem applyLoopAux_fst (fuel : Nat) : ∀ s : NodeState, ∃ la pc,
    (applyLoopAux fuel s).1
      = { s with lastApplied := la, pendingCommands := pc } := by
  induction fuel with
  | zero => intro s; exact ⟨s.lastApplied, s.pendingCommands, rfl⟩
  | succ n ih =>
    intro s
    simp only [applyLoopAux]
    split
    · exact ih _
    · exact ⟨s.lastApplied, s.pendingCommands, rfl⟩

/-- The apply loop never pushes lastApplied past commitIndex. -/
theorem applyLoopAux_lastApplied_le (fuel : Nat) : ∀ s : NodeState,
    s.lastApplied ≤ s.commitIndex →
    (applyLoopAux fuel s).1.lastApplied ≤ s.commitIndex := by
  induction fuel with
  | zero => intro s h; exact h
  | succ n ih =>
    intro s h
    simp only [applyLoopAux]
    split
    · next hgt => exact ih _ (by show s.lastApplied + 1 ≤ s.commitIndex; omega)
    · next hle => exact h

/-- The apply loop never inserts a pendingCommands entry. -/
theorem applyLoopAux_lookup_none (fuel : Nat) : ∀ (s : NodeState) (i : Nat),
    s.pendingCommands.lookup i = none →
    (applyLoopAux fuel s).1.pendingCommands.lookup i = none := by
  induction fuel with
  | zero => intro s i h; exact h
  | succ n ih =>
    intro s i h
    simp only [applyLoopAux]
    split
    · apply ih
      simp only
      split
      · exact lookup_none_filter _ _ _ h
      · exact h
    · exact h

/-- Every index in (lastApplied, commitIndex] reachable with the given
fuel is removed from pendingCommands by the apply loop. -/
theorem applyLoopAux_removes (fuel : Nat) : ∀ (s : NodeState) (i : Nat),
    s.lastApplied < i → i ≤ s.commitIndex → i ≤ s.lastApplied + fuel →
    (applyLoopAux fuel s).1.pendingCommands.lookup i = none := by
  induction fuel with
  | zero => intro s i h1 _ h3; omega
  | succ n ih =>
    intro s i h1 h2 h3
    simp only [applyLoopAux]
    split
    · by_cases hi : i = s.lastApplied + 1
      · apply applyLoopAux_lookup_none
        rcases hlk : s.pendingCommands.lookup (s.lastApplied + 1) with _ | sender
        · subst hi
          exact hlk
        · subst hi
          exact lookup_filter_ne_self _ _
      · exact ih _ i (by show s.lastApplied + 1 < i; omega) h2
          (by show i ≤ s.lastApplied + 1 + n; omega)
    · next hle => omega

/-- The apply loop emits only applyCommand effects and commandResult
replies. -/
theorem applyLoopAux_outputs (fuel : Nat) : ∀ (s : NodeState) (o : Output),
    o ∈ (applyLoopAux fuel s).2 →
    (∃ c, o = Output.applyCommand c) ∨
    (∃ dst r, o = Output.send dst (OutMsg.commandResult true r)) := by
  induction fuel with
  | zero => intro s o h; simp [applyLoopAux] at h
  | succ n ih =>
    intro s o h
    simp only [applyLoopAux] at h
    split at h
    · rcases List.mem_cons.mp h with h | h
      · exact Or.inl ⟨_, h⟩
      · rcases List.mem_append.mp h with h | h
        · revert h
          split
          · intro h
            rcases List.mem_singleton.mp h with rfl
            exact Or.inr ⟨_, _, rfl⟩
          · intro h
            exact absurd h (List.not_mem_nil o)
        · exact ih _ o h
    · exact absurd h (List.not_mem_nil o)

/-- Bounds for the leader commit scan. -/
theorem scanCommitAux_bounds (log : List LogEntry) (term : Nat)
    (nodes : List (PID × NodeMetadata)) (c : Nat) : ∀ i,
    c ≤ scanCommitAux log term nodes c i ∧ scanCommitAux log term nodes c i ≤ max c i := by
  intro i
  induction i with
  | zero => simp [scanCommitAux]
  | succ n ih =>
    simp only [scanCommitAux]
    split
    · next hge =>
      split
      · constructor <;> omega
      · exact ⟨ih.1, le_trans ih.2 (by omega)⟩
    · next hlt => constructor <;> omega

theorem scanCommit_bounds (s : NodeState) :
    s.commitIndex ≤ scanCommit s ∧ scanCommit s ≤ max s.commitIndex s.log.length :=
  scanCommitAux_bounds s.log s.currentTerm s.nodes s.commitIndex s.log.length

/-- updateStateMachine only modifies commitIndex, lastApplied and
pendingCommands. -/
theorem updateStateMachine_fst (s : NodeState) : ∃ ci la pc,
    (updateStateMachine s).1
      = { s with commitIndex := ci, lastApplied := la, pendingCommands := pc } := by
  unfold updateStateMachine applyLoop
  split
  · obtain ⟨la, pc, h⟩ := applyLoopAux_fst _ _
    exact ⟨_, la, pc, h⟩
  · obtain ⟨la, pc, h⟩ := applyLoopAux_fst _ _
    exact ⟨s.commitIndex, la, pc, h⟩

/-- The commitIndex produced by updateStateMachine. -/
theorem updateStateMachine_commitIndex (s : NodeState) :
    (updateStateMachine s).1.commitIndex
      = if s.leader = some s.selfPid then scanCommit s else s.commitIndex := by
  unfold updateStateMachine applyLoop
  split
  · obtain ⟨la, pc, h⟩ := applyLoopAux_fst _ _
    rw [h]
  · obtain ⟨la, pc, h⟩ := applyLoopAux_fst _ _
    rw [h]

/-! ## Handler frame lemmas -/

theorem handleExternalTerm_currentTerm_le (T : Nat) (s : NodeState) :
    s.currentTerm ≤ (handleExternalTerm T s).currentTerm := by
  unfold handleExternalTerm
  split
  · next h => exact le_of_lt h
  · exact le_refl _

/-- The pre-dispatch term advance on a strictly larger term sets the
term and clears leader and votedFor. -/
theorem handleExternalTerm_of_gt (T : Nat) (s : NodeState) (h : T > s.currentTerm) :
    handleExternalTerm T s
      = { s with currentTerm := T, leader := none, votedFor := none } := by
  unfold handleExternalTerm
  rw [if_pos h]

/-- handleExternalTerm only modifies currentTerm, leader and votedFor. -/
theorem handleExternalTerm_frame (T : Nat) (s : NodeState) : ∃ ct ld vf,
    handleExternalTerm T s
      = { s with currentTerm := ct, leader := ld, votedFor := vf } := by
  unfold handleExternalTerm
  split
  · exact ⟨_, _, _, rfl⟩
  · exact ⟨s.currentTerm, s.leader, s.votedFor, rfl⟩

/-- handleActiveNodes only modifies the peer table. -/
theorem handleActiveNodes_frame (pids : List PID) (s : NodeState) : ∃ nd,
    handleActiveNodes pids s = { s with nodes := nd } := ⟨_, rfl⟩

/-- handleCommand only appends to the log and inserts a pending command. -/
theorem handleCommand_frame (sender : PID) (cmd : String) (s : NodeState) : ∃ lg pc,
    (handleCommand sender cmd s).1 = { s with log := lg, pendingCommands := pc }
    ∧ s.log.length ≤ lg.length := by
  unfold handleCommand
  split
  · refine ⟨_, _, rfl, ?_⟩
    simp
  · exact ⟨s.log, s.pendingCommands, rfl, le_refl _⟩

/-- handleAppendEntries only modifies leader, log and commitIndex. -/
theorem handleAppendEntriesCore_frame (s : NodeState) (m : AppendEntriesMsg) :
    ∃ ld lg ci, (handleAppendEntriesCore s m).1
      = { s with leader := ld, log := lg, commitIndex := ci } := by
  unfold handleAppendEntriesCore
  split
  · exact ⟨s.leader, s.log, s.commitIndex, rfl⟩
  · dsimp only
    split
    · exact ⟨_, s.log, s.commitIndex, rfl⟩
    · split
      · exact ⟨_, _, _, rfl⟩
      · exact ⟨_, _, s.commitIndex, rfl⟩

/-- handleAppendEntriesResult only modifies the peer table. -/
theorem handleAppendEntriesResult_frame (m : AppendEntriesResultMsg) (s : NodeState) :
    ∃ nd, (handleAppendEntriesResult m s).1 = { s with nodes := nd } := by
  unfold handleAppendEntriesResult
  split
  · exact ⟨s.nodes, rfl⟩
  · split
    · exact ⟨_, rfl⟩
    · exact ⟨_, rfl⟩

/-- handleRequestVote only modifies votedFor. -/
theorem handleRequestVoteCore_frame (s : NodeState) (m : RequestVoteMsg) :
    ∃ vf, (handleRequestVoteCore s m).1 = { s with votedFor := vf } := by
  unfold handleRequestVoteCore
  split
  · exact ⟨s.votedFor, rfl⟩
  · split
    · exact ⟨_, rfl⟩
    · exact ⟨s.votedFor, rfl⟩

/-- handleRequestVoteResult only modifies leader, votes and the peer
table. -/
theorem handleRequestVoteResult_frame (m : RequestVoteResultMsg) (s : NodeState) :
    ∃ ld vt nd, (handleRequestVoteResult m s).1
      = { s with leader := ld, votes := vt, nodes := nd } := by
  unfold handleRequestVoteResult
  split
  · dsimp only
    split
    · exact ⟨_, _, _, rfl⟩
    · exact ⟨s.leader, _, s.nodes, rfl⟩
  · exact ⟨s.leader, s.votes, s.nodes, rfl⟩

/-- startElection advances the term, resets votes and votes for self. -/
theorem startElection_fst (s : NodeState) :
    (startElection s).1 = { s with currentTerm := s.currentTerm + 1,
                                   votes := 1, votedFor := some s.selfPid } := by
  unfold startElection
  dsimp only
  split
  · rfl
  · rfl

/-- No branch of the dispatch switch decreases currentTerm. -/
theorem dispatch_currentTerm_le (sender : PID) (msg : InMsg) (s : NodeState) :
    s.currentTerm ≤ (dispatch sender msg s).1.currentTerm := by
  cases msg with
  | activeNodes pids =>
    obtain ⟨nd, h⟩ := handleActiveNodes_frame pids s
    show s.currentTerm ≤ (handleActiveNodes pids s).currentTerm
    rw [h]
  | command cmd =>
    obtain ⟨lg, pc, h, _⟩ := handleCommand_frame sender cmd s
    show s.currentTerm ≤ (handleCommand sender cmd s).1.currentTerm
    rw [h]
  | appendEntries m =>
    obtain ⟨ld, lg, ci, h⟩ := handleAppendEntriesCore_frame (handleExternalTerm m.term s) m
    show s.currentTerm ≤ (handleAppendEntriesCore (handleExternalTerm m.term s) m).1.currentTerm
    rw [h]
    exact handleExternalTerm_currentTerm_le m.term s
  | appendEntriesResult m =>
    obtain ⟨nd, h⟩ := handleAppendEntriesResult_frame m (handleExternalTerm m.term s)
    show s.currentTerm ≤ (handleAppendEntriesResult m (handleExternalTerm m.term s)).1.currentTerm
    rw [h]
    exact handleExternalTerm_currentTerm_le m.term s
  | requestVote m =>
    obtain ⟨vf, h⟩ := handleRequestVoteCore_frame (handleExternalTerm m.term s) m
    show s.currentTerm ≤ (handleRequestVoteCore (handleExternalTerm m.term s) m).1.currentTerm
    rw [h]
    exact handleExternalTerm_currentTerm_le m.term s
  | requestVoteResult m =>
    obtain ⟨ld, vt, nd, h⟩ := handleRequestVoteResult_frame m (handleExternalTerm m.term s)
    show s.currentTerm ≤ (handleRequestVoteResult m (handleExternalTerm m.term s)).1.currentTerm
    rw [h]
    exact handleExternalTerm_currentTerm_le m.term s
  | heartbeatTimeout =>
    show s.currentTerm ≤ (if s.leader = some s.selfPid
      then (s, sendAppendEntriesAll s) else (s, [])).1.currentTerm
    split
    · exact le_refl _
    · exact le_refl _
  | electionTimeout =>
    show s.currentTerm ≤ (if ¬ s.leader = some s.selfPid
      then startElection s else (s, [])).1.currentTerm
    split
    · rw [startElection_fst]
      exact Nat.le_succ _
    · exact le_refl _

/-- The full Receive never decreases currentTerm. -/
theorem receive_currentTerm_le (sender : PID) (msg : InMsg) (s : NodeState) :
    s.currentTerm ≤ (receive sender msg s).1.currentTerm := by
  obtain ⟨ci, la, pc, h⟩ := updateStateMachine_fst (dispatch sender msg s).1
  show s.currentTerm ≤ (updateStateMachine (dispatch sender msg s).1).1.currentTerm
  rw [h]
  exact dispatch_currentTerm_le sender msg s

/-! ## appendStep and appendLoop lemmas -/

theorem appendStep_length (e : LogEntry) (idx : Nat) (log : List LogEntry)
    (h : idx ≤ log.length) : idx + 1 ≤ (appendStep e (idx + 1) log).length := by
  unfold appendStep
  dsimp only
  by_cases hP : log.length ≥ idx + 1 ∧ (log.getD (idx + 1 - 1) default).term ≠ e.term
  · have hl1 : (if log.length ≥ idx + 1 ∧ (log.getD (idx + 1 - 1) default).term ≠ e.term
        then log.take (idx + 1 - 1) else log) = log.take (idx + 1 - 1) := if_pos hP
    rw [hl1]
    have h1 : (log.take (idx + 1 - 1)).length = idx := by
      simp only [List.length_take]
      omega
    rw [if_pos (by rw [h1]; omega), List.length_append, h1]
    simp
  · have hl1 : (if log.length ≥ idx + 1 ∧ (log.getD (idx + 1 - 1) default).term ≠ e.term
        then log.take (idx + 1 - 1) else log) = log := if_neg hP
    rw [hl1]
    by_cases h2 : log.length < idx + 1
    · rw [if_pos h2, List.length_append]
      simp
      omega
    · rw [if_neg h2]
      omega

theorem appendStep_get_lt (e : LogEntry) (idx : Nat) (log : List LogEntry)
    (h : idx ≤ log.length) (p : Nat) (hp : p < idx) :
    (appendStep e (idx + 1) log)[p]? = log[p]? := by
  unfold appendStep
  dsimp only
  by_cases hP : log.length ≥ idx + 1 ∧ (log.getD (idx + 1 - 1) default).term ≠ e.term
  · have hl1 : (if log.length ≥ idx + 1 ∧ (log.getD (idx + 1 - 1) default).term ≠ e.term
        then log.take (idx + 1 - 1) else log) = log.take (idx + 1 - 1) := if_pos hP
    rw [hl1]
    have h1 : (log.take (idx + 1 - 1)).length = idx := by
      simp only [List.length_take]
      omega
    rw [if_pos (by rw [h1]; omega)]
    rw [List.getElem?_append, h1, if_pos hp, List.getElem?_take, if_pos (by omega)]
  · have hl1 : (if log.length ≥ idx + 1 ∧ (log.getD (idx + 1 - 1) default).term ≠ e.term
        then log.take (idx + 1 - 1) else log) = log := if_neg hP
    rw [hl1]
    by_cases h2 : log.length < idx + 1
    · rw [if_pos h2]
      rw [List.getElem?_append, if_pos (by omega)]
    · rw [if_neg h2]

theorem appendStep_get_self (e : LogEntry) (idx : Nat) (log : List LogEntry)
    (h : idx ≤ log.length) :
    ∃ x, (appendStep e (idx + 1) log)[idx]? = some x ∧ x.term = e.term := by
  unfold appendStep
  dsimp only
  by_cases hP : log.length ≥ idx + 1 ∧ (log.getD (idx + 1 - 1) default).term ≠ e.term
  · have hl1 : (if log.length ≥ idx + 1 ∧ (log.getD (idx + 1 - 1) default).term ≠ e.term
        then log.take (idx + 1 - 1) else log) = log.take (idx + 1 - 1) := if_pos hP
    rw [hl1]
    have h1 : (log.take (idx + 1 - 1)).length = idx := by
      simp only [List.length_take]
      omega
    rw [if_pos (by rw [h1]; omega)]
    refine ⟨e, ?_, rfl⟩
    rw [List.getElem?_append_right (by rw [h1]), h1]
    simp
  · have hl1 : (if log.length ≥ idx + 1 ∧ (log.getD (idx + 1 - 1) default).term ≠ e.term
        then log.take (idx + 1 - 1) else log) = log := if_neg hP
    rw [hl1]
    push_neg at hP
    by_cases h2 : log.length < idx + 1
    · rw [if_pos h2]
      refine ⟨e, ?_, rfl⟩
      have hlen : log.length = idx := by omega
      rw [List.getElem?_append_right (by omega), hlen]
      simp
    · rw [if_neg h2]
      have hidx : idx < log.length := by omega
      refine ⟨log[idx], by rw [List.getElem?_eq_getElem hidx], ?_⟩
      have htm := hP (by omega)
      rw [List.getD_eq_getElem?_getD] at htm
      rw [List.getElem?_eq_getElem (by omega : idx + 1 - 1 < log.length)] at htm
      simpa using htm

theorem appendLoop_length (es : List LogEntry) : ∀ (idx : Nat) (log : List LogEntry),
    idx ≤ log.length → idx + es.length ≤ (appendLoop es idx log).1.length := by
  induction es with
  | nil => intro idx log h; simpa [appendLoop] using h
  | cons e rest ih =>
    intro idx log h
    show idx + (rest.length + 1) ≤ (appendLoop rest (idx + 1) (appendStep e (idx + 1) log)).1.length
    have hs := appendStep_length e idx log h
    have := ih (idx + 1) (appendStep e (idx + 1) log) hs
    omega

theorem appendLoop_get_lt (es : List LogEntry) : ∀ (idx : Nat) (log : List LogEntry)
    (p : Nat), p < idx → idx ≤ log.length →
    (appendLoop es idx log).1[p]? = log[p]? := by
  induction es with
  | nil => intro idx log p _ _; rfl
  | cons e rest ih =>
    intro idx log p hp h
    show (appendLoop rest (idx + 1) (appendStep e (idx + 1) log)).1[p]? = log[p]?
    rw [ih (idx + 1) _ p (by omega) (appendStep_length e idx log h)]
    exact appendStep_get_lt e idx log h p hp

theorem appendLoop_get_term (es : List LogEntry) : ∀ (idx : Nat) (log : List LogEntry)
    (k : Nat), k < es.length → idx ≤ log.length →
    ∃ x, (appendLoop es idx log).1[idx + k]? = some x
      ∧ x.term = (es.getD k default).term := by
  induction es with
  | nil =>
    intro idx log k hk _
    exact absurd hk (by simp)
  | cons e rest ih =>
    intro idx log k hk h
    have hs := appendStep_length e idx log h
    match k with
    | 0 =>
      show ∃ x, (appendLoop rest (idx + 1) (appendStep e (idx + 1) log)).1[idx + 0]? = some x
        ∧ x.term = ((e :: rest).getD 0 default).term
      rw [show idx + 0 = idx from rfl]
      rw [appendLoop_get_lt rest (idx + 1) _ idx (by omega) hs]
      exact appendStep_get_self e idx log h
    | k' + 1 =>
      show ∃ x, (appendLoop rest (idx + 1) (appendStep e (idx + 1) log)).1[idx + (k' + 1)]? = some x
        ∧ x.term = (rest.getD k' default).term
      rw [show idx + (k' + 1) = (idx + 1) + k' from by omega]
      exact ih (idx + 1) _ k' (by simpa using hk) hs

theorem appendLoop_noop (es : List LogEntry) : ∀ (idx : Nat) (log : List LogEntry),
    idx + es.length ≤ log.length →
    (∀ k, k < es.length → ∃ x, log[idx + k]? = some x
      ∧ x.term = (es.getD k default).term) →
    appendLoop es idx log = (log, idx + es.length) := by
  induction es with
  | nil => intro idx log _ _; rfl
  | cons e rest ih =>
    intro idx log h hterm
    have hlen : idx + (rest.length + 1) ≤ log.length := by
      simpa using h
    obtain ⟨x, hx, hxterm⟩ := hterm 0 (by simp)
    rw [show idx + 0 = idx from rfl] at hx
    have hstep : appendStep e (idx + 1) log = log := by
      unfold appendStep
      dsimp only
      have hgd : (log.getD (idx + 1 - 1) default).term = e.term := by
        rw [List.getD_eq_getElem?_getD]
        rw [show idx + 1 - 1 = idx from rfl, hx]
        simpa using hxterm
      have hl1 : (if log.length ≥ idx + 1 ∧ (log.getD (idx + 1 - 1) default).term ≠ e.term
          then log.take (idx + 1 - 1) else log) = log :=
        if_neg (by rintro ⟨h1, h2⟩; exact h2 hgd)
      rw [hl1]
      rw [if_neg (by omega)]
    show appendLoop rest (idx + 1) (appendStep e (idx + 1) log) = (log, idx + (e :: rest).length)
    rw [hstep]
    rw [ih (idx + 1) log (by omega) ?cond]
    case cond =>
      intro k hk
      have hkk := hterm (k + 1) (by simpa using hk)
      rwa [show idx + (k + 1) = (idx + 1) + k from by omega] at hkk
    rw [Prod.mk.injEq]
    refine ⟨rfl, ?_⟩
    simp
    omega

/-! ## Branch characterizations of handleAppendEntries -/

theorem aeCore_eq_of_stale (s : NodeState) (m : AppendEntriesMsg)
    (h : m.term < s.currentTerm) :
    handleAppendEntriesCore s m = (s, false) := by
  unfold handleAppendEntriesCore
  rw [if_pos h]

theorem aeCore_eq_of_mismatch (s : NodeState) (m : AppendEntriesMsg)
    (h1 : ¬ m.term < s.currentTerm)
    (h2 : m.prevLogIndex > 0 ∧ (s.log.length < m.prevLogIndex
      ∨ (s.log.length > 0 ∧ (s.log.getD (m.prevLogIndex - 1) default).term ≠ m.prevLogTerm))) :
    handleAppendEntriesCore s m = ({ s with leader := some m.leaderPID }, false) := by
  unfold handleAppendEntriesCore
  rw [if_neg h1]
  dsimp only
  rw [if_pos h2]

theorem aeCore_eq_of_accept (s : NodeState) (m : AppendEntriesMsg)
    (h1 : ¬ m.term < s.currentTerm)
    (h2 : ¬ (m.prevLogIndex > 0 ∧ (s.log.length < m.prevLogIndex
      ∨ (s.log.length > 0 ∧ (s.log.getD (m.prevLogIndex - 1) default).term ≠ m.prevLogTerm)))) :
    handleAppendEntriesCore s m =
      (if m.leaderCommit > s.commitIndex
       then { s with leader := some m.leaderPID,
                     log := (appendLoop m.entries m.prevLogIndex s.log).1,
                     commitIndex :=
                       min m.leaderCommit (appendLoop m.entries m.prevLogIndex s.log).2 }
       else { s with leader := some m.leaderPID,
                     log := (appendLoop m.entries m.prevLogIndex s.log).1 }, true) := by
  unfold handleAppendEntriesCore
  rw [if_neg h1]
  dsimp only
  rw [if_neg h2]

/-- C6: handling an AppendEntries message is idempotent on the log: if
processing a message with fields (prevLogIndex, prevLogTerm, entries)
succeeds, then processing a second message with the same three fields on
the resulting state leaves the log unchanged. -/
theorem C6_append_entries_idempotent_on_log (s : NodeState) (m m2 : AppendEntriesMsg)
    (hpl : m2.prevLogIndex = m.prevLogIndex) (hpt : m2.prevLogTerm = m.prevLogTerm)
    (hes : m2.entries = m.entries)
    (hsucc : (handleAppendEntriesCore s m).2 = true) :
    (handleAppendEntriesCore (handleAppendEntriesCore s m).1 m2).1.log
      = (handleAppendEntriesCore s m).1.log := by
  by_cases h1 : m.term < s.currentTerm
  · rw [aeCore_eq_of_stale s m h1] at hsucc
    simp at hsucc
  by_cases h2 : m.prevLogIndex > 0 ∧ (s.log.length < m.prevLogIndex
      ∨ (s.log.length > 0 ∧ (s.log.getD (m.prevLogIndex - 1) default).term ≠ m.prevLogTerm))
  · rw [aeCore_eq_of_mismatch s m h1 h2] at hsucc
    simp at hsucc
  have hacc := aeCore_eq_of_accept s m h1 h2
  push_neg at h2
  have hplen : m.prevLogIndex ≤ s.log.length := by
    by_cases hp : m.prevLogIndex > 0
    · exact (h2 hp).1
    · omega
  set t := (handleAppendEntriesCore s m).1 with ht
  have htlog : t.log = (appendLoop m.entries m.prevLogIndex s.log).1 := by
    rw [ht, hacc]
    dsimp only
    split
    · rfl
    · rfl
  have hlen2 : m.prevLogIndex + m.entries.length ≤ t.log.length := by
    rw [htlog]
    exact appendLoop_length m.entries m.prevLogIndex s.log hplen
  have hprevterm : m.prevLogIndex > 0 →
      (t.log.getD (m.prevLogIndex - 1) default).term = m.prevLogTerm := by
    intro hp
    have hsk : t.log[m.prevLogIndex - 1]? = s.log[m.prevLogIndex - 1]? := by
      rw [htlog]
      exact appendLoop_get_lt m.entries m.prevLogIndex s.log (m.prevLogIndex - 1)
        (by omega) hplen
    rw [List.getD_eq_getElem?_getD, hsk, ← List.getD_eq_getElem?_getD]
    exact (h2 hp).2 (by omega)
  have hterm2 : ∀ k, k < m.entries.length →
      ∃ x, t.log[m.prevLogIndex + k]? = some x
        ∧ x.term = (m.entries.getD k default).term := by
    intro k hk
    rw [htlog]
    exact appendLoop_get_term m.entries m.prevLogIndex s.log k hk hplen
  by_cases hq1 : m2.term < t.currentTerm
  · rw [aeCore_eq_of_stale t m2 hq1]
  · have hq2 : ¬ (m2.prevLogIndex > 0 ∧ (t.log.length < m2.prevLogIndex
        ∨ (t.log.length > 0 ∧ (t.log.getD (m2.prevLogIndex - 1) default).term ≠ m2.prevLogTerm))) := by
      rw [hpl, hpt]
      rintro ⟨hp, hd⟩
      rcases hd with hlt | ⟨hpos, hne⟩
      · omega
      · exact hne (hprevterm hp)
    rw [aeCore_eq_of_accept t m2 hq1 hq2]
    have hnoop : appendLoop m2.entries m2.prevLogIndex t.log
        = (t.log, m2.prevLogIndex + m2.entries.length) := by
      rw [hpl, hes]
      exact appendLoop_noop m.entries m.prevLogIndex t.log hlen2 hterm2
    dsimp only
    rw [hnoop]
    split
    · rfl
    · rfl

/-! ## Claim theorems, part 1 -/

/-- C3 (failing input): handleActiveNodes does not preserve the cursors
of a peer that was already present and is still listed: on exC3 peer B
has cursors nextIndex 7, matchIndex 3, and after an ActiveNodes update
that still lists B they are reset to nextIndex = lastLogIndex + 1 = 2
and matchIndex = 0, because node.nodes is cleared before rebuilding. -/
theorem C3_active_nodes_resets_cursors :
    exC3.nodes = [("B", { pid := "B", nextIndex := 7, matchIndex := 3 })]
    ∧ (handleActiveNodes ["B"] exC3).nodes
        = [("B", { pid := "B", nextIndex := 2, matchIndex := 0 })] := by
  decide

/-- C4 counterexample: a leader with a pending command at index 1 is
demoted by a higher-term RequestVote, and afterwards pendingCommands
still contains the entry, refuting removal on leadership loss. -/
theorem C4_counterexample_pending_survives_demotion :
    exC4.leader = some exC4.selfPid
    ∧ exC4.pendingCommands = [(1, "client")]
    ∧ msgC4rv.term > exC4.currentTerm
    ∧ (receive "B" (InMsg.requestVote msgC4rv) exC4).1.leader ≠ some exC4.selfPid
    ∧ (receive "B" (InMsg.requestVote msgC4rv) exC4).1.pendingCommands
        = [(1, "client")] := by
  decide

/-- C4 as amended: pendingCommands entries are removed only on apply;
the demotion step handleExternalTerm leaves pendingCommands untouched
for every state and term, while the apply loop does remove every entry
whose index is applied (and the loop inserts none). -/
theorem C4_pending_removed_only_on_apply (T : Nat) (s : NodeState) (i : Nat)
    (h1 : s.lastApplied < i) (h2 : i ≤ s.commitIndex) :
    (handleExternalTerm T s).pendingCommands = s.pendingCommands
    ∧ (applyLoop s).1.pendingCommands.lookup i = none := by
  constructor
  · unfold handleExternalTerm
    split
    · rfl
    · rfl
  · exact applyLoopAux_removes (s.commitIndex - s.lastApplied) s i h1 h2 (by omega)

/-- C4 witness at a concrete input. -/
theorem C4_witness :
    exC4.lastApplied < 1 ∧ 1 ≤ 1 ∧
    ((handleExternalTerm 2 { exC4 with commitIndex := 1 }).pendingCommands
        = { exC4 with commitIndex := 1 : NodeState }.pendingCommands
      ∧ (applyLoop { exC4 with commitIndex := 1 }).1.pendingCommands.lookup 1 = none) :=
  ⟨by decide, by decide,
   C4_pending_removed_only_on_apply 2 { exC4 with commitIndex := 1 } 1
     (by decide) (by decide)⟩

/-- C5 counterexample: an AppendEntries with prevLogIndex 0, no entries
and leaderCommit 6 drops commitIndex from 5 to min 6 0 = 0, refuting
monotonicity of commitIndex for arbitrary message fields. -/
theorem C5_counterexample_commit_decreases :
    exC5.commitIndex = 5
    ∧ (receive "L" (InMsg.appendEntries msgC5ae) exC5).1.commitIndex = 0 := by
  decide

/-- C6 witness: a successful first application on a concrete state,
whose replay leaves the log unchanged. -/
theorem C6_witness :
    (handleAppendEntriesCore exC6 msgC6).2 = true
    ∧ (handleAppendEntriesCore (handleAppendEntriesCore exC6 msgC6).1 msgC6).1.log
        = (handleAppendEntriesCore exC6 msgC6).1.log :=
  ⟨by decide,
   C6_append_entries_idempotent_on_log exC6 msgC6 msgC6 rfl rfl rfl (by decide)⟩

/-- C7 (failing input): the concrete RequestVote below is granted and
exactly one RequestVoteResult is sent back, but no election timer reset
effect is produced on the grant path; an accepted AppendEntries on the
same state does produce the reset effect, so the embedding does record
timer resets where node.go performs them. -/
theorem C7_no_election_timer_reset_on_vote_grant :
    (receive "C" (InMsg.requestVote msgC7rv) exC7).2
      = [Output.send "C" (OutMsg.requestVoteResult 1 true)]
    ∧ Output.resetElectionTimer ∉ (receive "C" (InMsg.requestVote msgC7rv) exC7).2
    ∧ Output.resetElectionTimer ∈ (receive "L" (InMsg.appendEntries msgC7ae) exC7).2 := by
  refine ⟨by decide, by decide, by decide⟩

/-- C10: vote tallying does not deduplicate voters: the handling of a
RequestVoteResult does not depend on the sender, every grant carrying
the current term while not leader increments votes by exactly one, and
on the five-node state exC10 two deliveries of the same grant from the
same peer promote the node to leader with votes from only two distinct
nodes. -/
theorem C10_vote_tally_no_dedup :
    (∀ (sender1 sender2 : PID) (m : RequestVoteResultMsg) (s : NodeState),
      receive sender1 (InMsg.requestVoteResult m) s
        = receive sender2 (InMsg.requestVoteResult m) s)
    ∧ (∀ (m : RequestVoteResultMsg) (s : NodeState),
      m.voteGranted = true → m.term = s.currentTerm → ¬ s.leader = some s.selfPid →
      (handleRequestVoteResult m s).1.votes = s.votes + 1)
    ∧ exC10.nodes.length = 4 ∧ exC10.votes = 1
    ∧ rTwoGrantsC10.leader = some exC10.selfPid ∧ rTwoGrantsC10.votes = 3 := by
  refine ⟨fun _ _ _ _ => rfl, ?_, by decide, by decide, by decide, by decide⟩
  intro m s h1 h2 h3
  unfold handleRequestVoteResult
  rw [if_pos ⟨h1, h2, h3⟩]
  dsimp only
  split
  · rfl
  · rfl

/-- C10 witness at a concrete input. -/
theorem C10_witness :
    (handleRequestVoteResult msgC10grant exC10).1.votes = exC10.votes + 1 :=
  C10_vote_tally_no_dedup.2.1 msgC10grant exC10 rfl rfl (by decide)

/-- C2 counterexample: starting from a fresh follower, a first
AppendEntries installs and commits five entries of term 1; a second
AppendEntries with prevLogIndex 2 and one conflicting entry of term 2
truncates the log to length 3 while commitIndex stays 5, so the
invariant lastApplied ≤ commitIndex ≤ len(log) is broken at a handler
boundary by a message whose conflict resolution truncates the log. -/
theorem C2_counterexample_truncation_breaks_invariant :
    stateInv exC2init
    ∧ stateInv sC2afterOne
    ∧ sC2afterTwo.commitIndex = 5
    ∧ sC2afterTwo.log.length = 3
    ∧ ¬ stateInv sC2afterTwo := by
  decide

/-- C1 counterexample: on the three-node leader state exC1st, index 1
carries the current term and a majority of the whole cluster counting
the leader itself has matchIndex ≥ 1 (2 of 3), yet updateStateMachine
leaves commitIndex at 0 because node.go requires strictly more than
half of the peers alone (both B and C here). -/
theorem C1_counterexample_majority_counting_self :
    exC1st.leader = some exC1st.selfPid
    ∧ exC1st.commitIndex = 0
    ∧ exC1st.log.length = 1
    ∧ (exC1st.log.getD 0 default).term = exC1st.currentTerm
    ∧ claimClusterMajority exC1st.nodes 1
    ∧ (updateStateMachine exC1st).1.commitIndex = 0 := by
  decide

/-! ## Commit scan characterization -/

theorem scanCommitAux_spec (log : List LogEntry) (term : Nat)
    (nodes : List (PID × NodeMetadata)) (c : Nat) : ∀ i,
    (scanCommitAux log term nodes c i = c
      ∧ ∀ j, c < j → j ≤ i →
        ¬ ((log.getD (j - 1) default).term = term
           ∧ 2 * countMatched nodes j > nodes.length))
    ∨ (c < scanCommitAux log term nodes c i ∧ scanCommitAux log term nodes c i ≤ i
      ∧ ((log.getD (scanCommitAux log term nodes c i - 1) default).term = term
         ∧ 2 * countMatched nodes (scanCommitAux log term nodes c i) > nodes.length)
      ∧ ∀ k, scanCommitAux log term nodes c i < k → k ≤ i →
        ¬ ((log.getD (k - 1) default).term = term
           ∧ 2 * countMatched nodes k > nodes.length)) := by
  intro i
  induction i with
  | zero =>
    left
    exact ⟨rfl, fun j hj hj0 => by omega⟩
  | succ n ih =>
    by_cases hge : n + 1 ≥ c + 1
    · by_cases hq : (log.getD (n + 1 - 1) default).term = term
        ∧ 2 * countMatched nodes (n + 1) > nodes.length
      · have hres : scanCommitAux log term nodes c (n + 1) = n + 1 := by
          simp only [scanCommitAux]
          rw [if_pos hge, if_pos hq]
        right
        rw [hres]
        exact ⟨by omega, le_refl _, hq, fun k hk1 hk2 => by omega⟩
      · have hres : scanCommitAux log term nodes c (n + 1)
            = scanCommitAux log term nodes c n := by
          simp only [scanCommitAux]
          rw [if_pos hge, if_neg hq]
        rw [hres]
        rcases ih with ⟨h0, hall⟩ | ⟨hlt, hle, hq2, hall⟩
        · left
          refine ⟨h0, fun j hj hj2 => ?_⟩
          by_cases hj3 : j = n + 1
          · subst hj3; exact hq
          · exact hall j hj (by omega)
        · right
          refine ⟨hlt, by omega, hq2, fun k hk1 hk2 => ?_⟩
          by_cases hk3 : k = n + 1
          · subst hk3; exact hq
          · exact hall k hk1 (by omega)
    · have hres : scanCommitAux log term nodes c (n + 1) = c := by
        simp only [scanCommitAux]
        rw [if_neg hge]
      left
      rw [hres]
      exact ⟨rfl, fun j hj hj2 => by omega⟩

/-- C1 as amended: after each handler, while leader, the new commitIndex
is characterized by commitAdvanceSpec: it is the largest index i in
(commitIndex, lastLogIndex] with log entry term equal to currentTerm and
strictly more than half of the peers alone (self not counted) having
matchIndex ≥ i, or commitIndex is unchanged when no such index exists;
in a three-node cluster this requires both peers to have replicated. -/
theorem C1_leader_commit_advance (s : NodeState) (h : s.leader = some s.selfPid) :
    commitAdvanceSpec s ((updateStateMachine s).1.commitIndex) := by
  rw [updateStateMachine_commitIndex, if_pos h]
  have hs := scanCommitAux_spec s.log s.currentTerm s.nodes s.commitIndex s.log.length
  unfold commitAdvanceSpec
  rcases hs with ⟨h0, hall⟩ | ⟨hlt, hle, hq, hall⟩
  · left
    exact ⟨h0, hall⟩
  · right
    exact ⟨hlt, hle, hq, hall⟩

/-- C1 witness: the amended characterization evaluated on the concrete
three-node leader state exC1st. -/
theorem C1_witness :
    commitAdvanceSpec exC1st ((updateStateMachine exC1st).1.commitIndex) :=
  C1_leader_commit_advance exC1st rfl

/-! ## Invariant and monotonicity preservation -/

theorem appendLoop_snd (es : List LogEntry) : ∀ (idx : Nat) (log : List LogEntry),
    (appendLoop es idx log).2 = idx + es.length := by
  induction es with
  | nil => intro idx log; rfl
  | cons e rest ih =>
    intro idx log
    show (appendLoop rest (idx + 1) (appendStep e (idx + 1) log)).2
      = idx + (rest.length + 1)
    rw [ih]
    omega

/-- commitIndex does not decrease across handleAppendEntries provided
the index of the last new entry is not below commitIndex. -/
theorem aeCore_commit_mono (s : NodeState) (m : AppendEntriesMsg)
    (hm : s.commitIndex ≤ m.prevLogIndex + m.entries.length) :
    s.commitIndex ≤ (handleAppendEntriesCore s m).1.commitIndex := by
  by_cases h1 : m.term < s.currentTerm
  · rw [aeCore_eq_of_stale s m h1]
  · by_cases h2 : m.prevLogIndex > 0 ∧ (s.log.length < m.prevLogIndex
      ∨ (s.log.length > 0 ∧ (s.log.getD (m.prevLogIndex - 1) default).term ≠ m.prevLogTerm))
    · rw [aeCore_eq_of_mismatch s m h1 h2]
    · rw [aeCore_eq_of_accept s m h1 h2]
      have hsnd := appendLoop_snd m.entries m.prevLogIndex s.log
      dsimp only
      split
      · next hLC =>
        show s.commitIndex ≤ min m.leaderCommit (appendLoop m.entries m.prevLogIndex s.log).2
        exact le_min (le_of_lt hLC) (by omega)
      · exact le_refl _

/-- The spec invariant is preserved by handleAppendEntries under the
same side condition. -/
theorem aeCore_inv (s : NodeState) (m : AppendEntriesMsg)
    (hinv : stateInv s)
    (hm : s.commitIndex ≤ m.prevLogIndex + m.entries.length) :
    stateInv (handleAppendEntriesCore s m).1 := by
  obtain ⟨hi1, hi2⟩ := hinv
  by_cases h1 : m.term < s.currentTerm
  · rw [aeCore_eq_of_stale s m h1]
    exact ⟨hi1, hi2⟩
  · by_cases h2 : m.prevLogIndex > 0 ∧ (s.log.length < m.prevLogIndex
      ∨ (s.log.length > 0 ∧ (s.log.getD (m.prevLogIndex - 1) default).term ≠ m.prevLogTerm))
    · rw [aeCore_eq_of_mismatch s m h1 h2]
      exact ⟨hi1, hi2⟩
    · rw [aeCore_eq_of_accept s m h1 h2]
      have hsnd := appendLoop_snd m.entries m.prevLogIndex s.log
      have hplen : m.prevLogIndex ≤ s.log.length := by
        by_cases hp : m.prevLogIndex > 0
        · push_neg at h2
          exact (h2 hp).1
        · omega
      have hlen := appendLoop_length m.entries m.prevLogIndex s.log hplen
      dsimp only
      split
      · next hLC =>
        constructor
        · show s.lastApplied ≤ min m.leaderCommit (appendLoop m.entries m.prevLogIndex s.log).2
          exact le_min (by omega) (by omega)
        · show min m.leaderCommit (appendLoop m.entries m.prevLogIndex s.log).2
            ≤ (appendLoop m.entries m.prevLogIndex s.log).1.length
          exact le_trans (min_le_right _ _) (by omega)
      · constructor
        · exact hi1
        · show s.commitIndex ≤ (appendLoop m.entries m.prevLogIndex s.log).1.length
          omega

/-- updateStateMachine never decreases commitIndex. -/
theorem updateStateMachine_commit_mono (s : NodeState) :
    s.commitIndex ≤ (updateStateMachine s).1.commitIndex := by
  rw [updateStateMachine_commitIndex]
  split
  · exact (scanCommit_bounds s).1
  · exact le_refl _

/-- updateStateMachine preserves the spec invariant. -/
theorem updateStateMachine_inv (s : NodeState) (hinv : stateInv s) :
    stateInv (updateStateMachine s).1 := by
  obtain ⟨hi1, hi2⟩ := hinv
  unfold updateStateMachine applyLoop
  dsimp only
  split
  · next hld =>
    obtain ⟨hs1, hs2⟩ := scanCommit_bounds s
    have hs2' : scanCommit s ≤ s.log.length := by
      rw [max_eq_right hi2] at hs2
      exact hs2
    have hle := applyLoopAux_lastApplied_le
      (scanCommit s - s.lastApplied) { s with commitIndex := scanCommit s }
      (by show s.lastApplied ≤ scanCommit s; omega)
    obtain ⟨la, pc, hfst⟩ := applyLoopAux_fst
      (scanCommit s - s.lastApplied) { s with commitIndex := scanCommit s }
    rw [hfst] at hle ⊢
    exact ⟨hle, hs2'⟩
  · have hle := applyLoopAux_lastApplied_le (s.commitIndex - s.lastApplied) s hi1
    obtain ⟨la, pc, hfst⟩ := applyLoopAux_fst (s.commitIndex - s.lastApplied) s
    rw [hfst] at hle ⊢
    exact ⟨hle, hi2⟩

/-- Every branch of the dispatch switch preserves the spec invariant and
never decreases commitIndex, under the AppendEntries side condition. -/
theorem dispatch_inv (sender : PID) (msg : InMsg) (s : NodeState)
    (hinv : stateInv s) (hok : msgOk s msg) :
    stateInv (dispatch sender msg s).1
    ∧ s.commitIndex ≤ (dispatch sender msg s).1.commitIndex := by
  obtain ⟨hi1, hi2⟩ := hinv
  cases msg with
  | activeNodes pids =>
    obtain ⟨nd, h⟩ := handleActiveNodes_frame pids s
    show stateInv (handleActiveNodes pids s)
      ∧ s.commitIndex ≤ (handleActiveNodes pids s).commitIndex
    rw [h]
    exact ⟨⟨hi1, hi2⟩, le_refl _⟩
  | command cmd =>
    obtain ⟨lg, pc, h, hlen⟩ := handleCommand_frame sender cmd s
    show stateInv (handleCommand sender cmd s).1
      ∧ s.commitIndex ≤ (handleCommand sender cmd s).1.commitIndex
    rw [h]
    exact ⟨⟨hi1, le_trans hi2 hlen⟩, le_refl _⟩
  | appendEntries m =>
    obtain ⟨ct, ld, vf, hh⟩ := handleExternalTerm_frame m.term s
    have hceq : (handleExternalTerm m.term s).commitIndex = s.commitIndex := by
      rw [hh]
    have hinv0 : stateInv (handleExternalTerm m.term s) := by
      rw [hh]
      exact ⟨hi1, hi2⟩
    have hm : (handleExternalTerm m.term s).commitIndex
        ≤ m.prevLogIndex + m.entries.length := by
      rw [hceq]
      exact hok
    have h1 := aeCore_inv (handleExternalTerm m.term s) m hinv0 hm
    have h2 := aeCore_commit_mono (handleExternalTerm m.term s) m hm
    rw [hceq] at h2
    exact ⟨h1, h2⟩
  | appendEntriesResult m =>
    obtain ⟨ct, ld, vf, hh⟩ := handleExternalTerm_frame m.term s
    obtain ⟨nd, h⟩ := handleAppendEntriesResult_frame m (handleExternalTerm m.term s)
    show stateInv (handleAppendEntriesResult m (handleExternalTerm m.term s)).1
      ∧ s.commitIndex
        ≤ (handleAppendEntriesResult m (handleExternalTerm m.term s)).1.commitIndex
    rw [h, hh]
    exact ⟨⟨hi1, hi2⟩, le_refl _⟩
  | requestVote m =>
    obtain ⟨ct, ld, vf, hh⟩ := handleExternalTerm_frame m.term s
    obtain ⟨vf2, h⟩ := handleRequestVoteCore_frame (handleExternalTerm m.term s) m
    show stateInv (handleRequestVoteCore (handleExternalTerm m.term s) m).1
      ∧ s.commitIndex
        ≤ (handleRequestVoteCore (handleExternalTerm m.term s) m).1.commitIndex
    rw [h, hh]
    exact ⟨⟨hi1, hi2⟩, le_refl _⟩
  | requestVoteResult m =>
    obtain ⟨ct, ld, vf, hh⟩ := handleExternalTerm_frame m.term s
    obtain ⟨ld2, vt, nd, h⟩ := handleRequestVoteResult_frame m (handleExternalTerm m.term s)
    show stateInv (handleRequestVoteResult m (handleExternalTerm m.term s)).1
      ∧ s.commitIndex
        ≤ (handleRequestVoteResult m (handleExternalTerm m.term s)).1.commitIndex
    rw [h, hh]
    exact ⟨⟨hi1, hi2⟩, le_refl _⟩
  | electionTimeout =>
    show stateInv (if ¬ s.leader = some s.selfPid
        then startElection s else (s, [])).1
      ∧ s.commitIndex ≤ (if ¬ s.leader = some s.selfPid
        then startElection s else (s, [])).1.commitIndex
    split
    · rw [startElection_fst]
      exact ⟨⟨hi1, hi2⟩, le_refl _⟩
    · exact ⟨⟨hi1, hi2⟩, le_refl _⟩
  | heartbeatTimeout =>
    show stateInv (if s.leader = some s.selfPid
        then (s, sendAppendEntriesAll s) else (s, [])).1
      ∧ s.commitIndex ≤ (if s.leader = some s.selfPid
        then (s, sendAppendEntriesAll s) else (s, [])).1.commitIndex
    split
    · exact ⟨⟨hi1, hi2⟩, le_refl _⟩
    · exact ⟨⟨hi1, hi2⟩, le_refl _⟩

/-- C2 as amended: the invariant lastApplied ≤ commitIndex ≤ len(log) is
preserved by every handled message at every handler boundary, provided
every AppendEntries payload satisfies
commitIndex ≤ prevLogIndex + len(entries) at receipt; the counterexample
shows the proviso cannot be dropped for conflict truncations below the
current commitIndex. -/
theorem C2_invariant_preserved (sender : PID) (msg : InMsg) (s : NodeState)
    (hinv : stateInv s) (hok : msgOk s msg) :
    stateInv (receive sender msg s).1 := by
  have hd := dispatch_inv sender msg s hinv hok
  exact updateStateMachine_inv (dispatch sender msg s).1 hd.1

/-- C2 witness: the invariant is preserved on the concrete first
AppendEntries of the counterexample scenario. -/
theorem C2_witness :
    stateInv exC2init ∧ msgOk exC2init (InMsg.appendEntries msgC2one)
    ∧ stateInv (receive "L" (InMsg.appendEntries msgC2one) exC2init).1 :=
  ⟨by decide, by decide,
   C2_invariant_preserved "L" (InMsg.appendEntries msgC2one) exC2init
     (by decide) (by decide)⟩

/-- C5 as amended: commitIndex is monotonically non-decreasing across
every handled message provided every AppendEntries payload satisfies
commitIndex ≤ prevLogIndex + len(entries) at receipt; the counterexample
shows it can decrease without that proviso. -/
theorem C5_commit_monotone (sender : PID) (msg : InMsg) (s : NodeState)
    (hok : msgOk s msg) :
    s.commitIndex ≤ (receive sender msg s).1.commitIndex := by
  have hd : s.commitIndex ≤ (dispatch sender msg s).1.commitIndex := by
    cases msg with
    | activeNodes pids =>
      obtain ⟨nd, h⟩ := handleActiveNodes_frame pids s
      show s.commitIndex ≤ (handleActiveNodes pids s).commitIndex
      rw [h]
    | command cmd =>
      obtain ⟨lg, pc, h, hlen⟩ := handleCommand_frame sender cmd s
      show s.commitIndex ≤ (handleCommand sender cmd s).1.commitIndex
      rw [h]
    | appendEntries m =>
      obtain ⟨ct, ld, vf, hh⟩ := handleExternalTerm_frame m.term s
      have hceq : (handleExternalTerm m.term s).commitIndex = s.commitIndex := by
        rw [hh]
      have hm : (handleExternalTerm m.term s).commitIndex
          ≤ m.prevLogIndex + m.entries.length := by
        rw [hceq]
        exact hok
      have h2 := aeCore_commit_mono (handleExternalTerm m.term s) m hm
      rw [hceq] at h2
      exact h2
    | appendEntriesResult m =>
      obtain ⟨ct, ld, vf, hh⟩ := handleExternalTerm_frame m.term s
      obtain ⟨nd, h⟩ := handleAppendEntriesResult_frame m (handleExternalTerm m.term s)
      show s.commitIndex
        ≤ (handleAppendEntriesResult m (handleExternalTerm m.term s)).1.commitIndex
      rw [h, hh]
    | requestVote m =>
      obtain ⟨ct, ld, vf, hh⟩ := handleExternalTerm_frame m.term s
      obtain ⟨vf2, h⟩ := handleRequestVoteCore_frame (handleExternalTerm m.term s) m
      show s.commitIndex
        ≤ (handleRequestVoteCore (handleExternalTerm m.term s) m).1.commitIndex
      rw [h, hh]
    | requestVoteResult m =>
      obtain ⟨ct, ld, vf, hh⟩ := handleExternalTerm_frame m.term s
      obtain ⟨ld2, vt, nd, h⟩ := handleRequestVoteResult_frame m (handleExternalTerm m.term s)
      show s.commitIndex
        ≤ (handleRequestVoteResult m (handleExternalTerm m.term s)).1.commitIndex
      rw [h, hh]
    | electionTimeout =>
      show s.commitIndex ≤ (if ¬ s.leader = some s.selfPid
        then startElection s else (s, [])).1.commitIndex
      split
      · rw [startElection_fst]
      · exact le_refl _
    | heartbeatTimeout =>
      show s.commitIndex ≤ (if s.leader = some s.selfPid
        then (s, sendAppendEntriesAll s) else (s, [])).1.commitIndex
      split
      · exact le_refl _
      · exact le_refl _
  exact le_trans hd (updateStateMachine_commit_mono (dispatch sender msg s).1)

/-- C5 witness: monotonicity on the concrete first AppendEntries of the
C2 scenario. -/
theorem C5_witness :
    msgOk exC2init (InMsg.appendEntries msgC2one)
    ∧ exC2init.commitIndex
        ≤ (receive "L" (InMsg.appendEntries msgC2one) exC2init).1.commitIndex :=
  ⟨by decide,
   C5_commit_monotone "L" (InMsg.appendEntries msgC2one) exC2init (by decide)⟩

/-! ## RequestVote branch characterizations and output lemmas -/

theorem rvCore_eq_of_stale (s : NodeState) (m : RequestVoteMsg)
    (h : m.term < s.currentTerm) :
    handleRequestVoteCore s m = (s, false) := by
  unfold handleRequestVoteCore
  rw [if_pos h]

theorem rvCore_eq_of_grant (s : NodeState) (m : RequestVoteMsg)
    (h1 : ¬ m.term < s.currentTerm)
    (h2 : (s.votedFor = none ∨ s.votedFor = some m.candidatePID)
      ∧ m.lastLogIndex ≥ s.lastApplied
      ∧ (s.lastApplied = 0
         ∨ m.lastLogTerm ≥ (s.log.getD (s.lastApplied - 1) default).term)) :
    handleRequestVoteCore s m = ({ s with votedFor := some m.candidatePID }, true) := by
  unfold handleRequestVoteCore
  rw [if_neg h1, if_pos h2]

theorem rvCore_eq_of_nogrant (s : NodeState) (m : RequestVoteMsg)
    (h1 : ¬ m.term < s.currentTerm)
    (h2 : ¬ ((s.votedFor = none ∨ s.votedFor = some m.candidatePID)
      ∧ m.lastLogIndex ≥ s.lastApplied
      ∧ (s.lastApplied = 0
         ∨ m.lastLogTerm ≥ (s.log.getD (s.lastApplied - 1) default).term))) :
    handleRequestVoteCore s m = (s, false) := by
  unfold handleRequestVoteCore
  rw [if_neg h1, if_neg h2]

theorem applyLoopAux_no_rvr (fuel : Nat) (s : NodeState) :
    (applyLoopAux fuel s).2.filter isRequestVoteResultSend = [] := by
  rw [List.filter_eq_nil_iff]
  intro o ho
  rcases applyLoopAux_outputs fuel s o ho with ⟨c, rfl⟩ | ⟨d, r, rfl⟩
  · simp [isRequestVoteResultSend]
  · simp [isRequestVoteResultSend]

theorem updateStateMachine_no_rvr (s : NodeState) :
    (updateStateMachine s).2.filter isRequestVoteResultSend = [] := by
  unfold updateStateMachine applyLoop
  dsimp only
  split
  · exact applyLoopAux_no_rvr _ _
  · exact applyLoopAux_no_rvr _ _

/-! ## Claim theorems, part 2 -/

/-- C8: pre-dispatch term advance: an inbound term T strictly above
currentTerm sets currentTerm = T and clears leader and votedFor
(handleExternalTerm runs before the specific handler for all four peer
messages in the dispatch switch), and the full Receive never decreases
currentTerm on any message. -/
theorem C8_pre_dispatch_term_advance (s : NodeState) (T : Nat)
    (sender : PID) (msg : InMsg) :
    (T > s.currentTerm →
      handleExternalTerm T s
        = { s with currentTerm := T, leader := none, votedFor := none })
    ∧ s.currentTerm ≤ (receive sender msg s).1.currentTerm :=
  ⟨handleExternalTerm_of_gt T s, receive_currentTerm_le sender msg s⟩

/-- C8 witness at a concrete higher-term input. -/
theorem C8_witness :
    2 > exC8.currentTerm
    ∧ handleExternalTerm 2 exC8
        = { exC8 with currentTerm := 2, leader := none, votedFor := none }
    ∧ exC8.currentTerm
        ≤ (receive "B" (InMsg.appendEntries msgC7ae) exC8).1.currentTerm :=
  ⟨by decide,
   (C8_pre_dispatch_term_advance exC8 2 "B" (InMsg.appendEntries msgC7ae)).1 (by decide),
   (C8_pre_dispatch_term_advance exC8 2 "B" (InMsg.appendEntries msgC7ae)).2⟩

/-- C9: RequestVote receiver logic: with the post-advance state
handleExternalTerm m.term s, the vote is granted iff m.term is at least
the post-advance currentTerm, votedFor is unset or equal to the
candidate, m.lastLogIndex ≥ lastApplied, and lastApplied = 0 or
m.lastLogTerm ≥ log[lastApplied-1].term; on grant votedFor becomes the
candidate, and among all outputs of the full Receive exactly one
RequestVoteResult is sent, back to the sender, carrying the post-advance
currentTerm. -/
theorem C9_request_vote_receiver (s : NodeState) (sender : PID) (m : RequestVoteMsg) :
    ((handleRequestVoteCore (handleExternalTerm m.term s) m).2 = true ↔
      (m.term ≥ (handleExternalTerm m.term s).currentTerm
        ∧ ((handleExternalTerm m.term s).votedFor = none
           ∨ (handleExternalTerm m.term s).votedFor = some m.candidatePID)
        ∧ m.lastLogIndex ≥ (handleExternalTerm m.term s).lastApplied
        ∧ ((handleExternalTerm m.term s).lastApplied = 0
           ∨ m.lastLogTerm ≥ ((handleExternalTerm m.term s).log.getD
               ((handleExternalTerm m.term s).lastApplied - 1) default).term)))
    ∧ ((handleRequestVoteCore (handleExternalTerm m.term s) m).2 = true →
        (receive sender (InMsg.requestVote m) s).1.votedFor = some m.candidatePID)
    ∧ (receive sender (InMsg.requestVote m) s).2.filter isRequestVoteResultSend
        = [Output.send sender (OutMsg.requestVoteResult
            (handleExternalTerm m.term s).currentTerm
            (handleRequestVoteCore (handleExternalTerm m.term s) m).2)] := by
  set s0 := handleExternalTerm m.term s with hs0
  refine ⟨?_, ?_, ?_⟩
  · by_cases h1 : m.term < s0.currentTerm
    · rw [rvCore_eq_of_stale s0 m h1]
      constructor
      · intro h
        exact absurd h (by simp)
      · rintro ⟨hge, _⟩
        omega
    · by_cases h2 : (s0.votedFor = none ∨ s0.votedFor = some m.candidatePID)
        ∧ m.lastLogIndex ≥ s0.lastApplied
        ∧ (s0.lastApplied = 0
           ∨ m.lastLogTerm ≥ (s0.log.getD (s0.lastApplied - 1) default).term)
      · rw [rvCore_eq_of_grant s0 m h1 h2]
        constructor
        · intro _
          exact ⟨by omega, h2⟩
        · intro _
          rfl
      · rw [rvCore_eq_of_nogrant s0 m h1 h2]
        constructor
        · intro h
          exact absurd h (by simp)
        · rintro ⟨hge, hrest⟩
          exact absurd hrest h2
  · intro hg
    obtain ⟨ci, la, pc, hu⟩ :=
      updateStateMachine_fst (dispatch sender (InMsg.requestVote m) s).1
    show (updateStateMachine (dispatch sender (InMsg.requestVote m) s).1).1.votedFor
      = some m.candidatePID
    rw [hu]
    show (handleRequestVoteCore s0 m).1.votedFor = some m.candidatePID
    by_cases h1 : m.term < s0.currentTerm
    · rw [rvCore_eq_of_stale s0 m h1] at hg
      exact absurd hg (by simp)
    · by_cases h2 : (s0.votedFor = none ∨ s0.votedFor = some m.candidatePID)
        ∧ m.lastLogIndex ≥ s0.lastApplied
        ∧ (s0.lastApplied = 0
           ∨ m.lastLogTerm ≥ (s0.log.getD (s0.lastApplied - 1) default).term)
      · rw [rvCore_eq_of_grant s0 m h1 h2]
      · rw [rvCore_eq_of_nogrant s0 m h1 h2] at hg
        exact absurd hg (by simp)
  · show ((handleRequestVoteFull sender m s0).2
        ++ (updateStateMachine (handleRequestVoteFull sender m s0).1).2).filter
          isRequestVoteResultSend
      = [Output.send sender (OutMsg.requestVoteResult s0.currentTerm
          (handleRequestVoteCore s0 m).2)]
    rw [List.filter_append, updateStateMachine_no_rvr, List.append_nil]
    show ([Output.send sender (OutMsg.requestVoteResult
        (handleRequestVoteCore s0 m).1.currentTerm
        (handleRequestVoteCore s0 m).2)]).filter isRequestVoteResultSend
      = [Output.send sender (OutMsg.requestVoteResult s0.currentTerm
          (handleRequestVoteCore s0 m).2)]
    obtain ⟨vf, hf⟩ := handleRequestVoteCore_frame s0 m
    rw [hf]
    simp [isRequestVoteResultSend]

end Raft
